import Mathlib

/-!
Verification of the diff-resolution and bounded-concurrency review pipeline of
the CodeReview repository (CodeReviewRunner and AIReviewer).

Strings are modeled as lists of characters.  The JavaScript regular
expressions used by the parsers are modeled by executable character-list
matchers that follow the backtracking behaviour of the source patterns on the
character classes that occur in describe output (ASCII).  The worker pool of
CodeReviewRunner.runConcurrent is modeled as a small-step transition relation
over scheduler states, with one atomic step for claiming the shared cursor
(the synchronous "nNext++" together with the bound check) and one atomic step
for the completion of an awaited handler call (result or error recording).
-/

namespace CodeReview

/-- JavaScript whitespace class (regex backslash-s), restricted to the ASCII
whitespace characters that occur in describe output. -/
def isWs (c : Char) : Bool :=
  c == ' ' || c == '\t' || c == '\n' || c == '\r' || c == '\x0b' || c == '\x0c'

/-- JavaScript digit class (regex backslash-d), exactly the characters 0-9. -/
def isDigitCh (c : Char) : Bool :=
  c.isDigit

/-- JavaScript word class (regex backslash-w): ASCII letters, digits and underscore. -/
def isWordCh (c : Char) : Bool :=
  c.isAlphanum || c == '_'

/-- Characters matched by the regex dot: everything except line terminators. -/
def dotChar (c : Char) : Bool :=
  !(c == '\n' || c == '\r')

/-- Model of the JavaScript string split on the pattern carriage-return-optional
followed by newline, as used by every parser in CodeReviewRunner. -/
def splitLines : List Char → List (List Char)
  | [] => [[]]
  | '\r' :: '\n' :: rest => [] :: splitLines rest
  | '\n' :: rest => [] :: splitLines rest
  | c :: rest =>
    match splitLines rest with
    | [] => [[c]]
    | l :: ls => (c :: l) :: ls

/-- Model of JavaScript Array.prototype.join with a separator. -/
def joinSep (sep : List Char) : List (List Char) → List Char
  | [] => []
  | [x] => x
  | x :: xs => x ++ sep ++ joinSep sep xs

/-- Join a list of lines with a newline, as the source does after slicing lines. -/
def joinLines (ls : List (List Char)) : List Char :=
  joinSep ['\n'] ls

/-- Model of JavaScript String.prototype.trim on ASCII whitespace. -/
def jsTrim (l : List Char) : List Char :=
  ((l.dropWhile isWs).reverse.dropWhile isWs).reverse

/-- Value of a digit string, as produced by parseInt on a regex digit capture. -/
def natOfDigits (ds : List Char) : ℕ :=
  ds.foldl (fun n c => 10 * n + (c.toNat - 48)) 0

/-! ## DiffChunker: chunkString from AIReviewer.js

The source guards with a length test and otherwise runs a for loop pushing
slice(i, i + nMax) while i < length, stepping i by nMax.  For a positive
maximum size the loop is modeled structurally by chunkLoop; chunkStringIter
below models the raw loop literally (integer index, fuel for the iteration
count) and is related to this version for positive sizes. -/

/-- One slicing loop of chunkString: repeatedly take nMax characters. -/
def chunkLoop (nMax : ℕ) (s : List Char) : List (List Char) :=
  if h : nMax = 0 ∨ s = [] then [] else s.take nMax :: chunkLoop nMax (s.drop nMax)
termination_by s.length
decreasing_by
  simp only [not_or] at h
  have h1 : 0 < nMax := Nat.pos_of_ne_zero h.1
  have h2 : 0 < s.length := List.length_pos.mpr h.2
  simp only [List.length_drop]
  omega

/-- chunkString from AIReviewer.js: a single chunk when the text fits in nMax,
otherwise contiguous slices of nMax characters. -/
def chunkString (strText : List Char) (nMax : ℕ) : List (List Char) :=
  if strText.length ≤ nMax then [strText] else chunkLoop nMax strText

lemma chunkLoop_nil (nMax : ℕ) : chunkLoop nMax [] = [] := by
  unfold chunkLoop
  simp

lemma chunkLoop_join (nMax : ℕ) (h : 0 < nMax) (s : List Char) :
    (chunkLoop nMax s).join = s := by
  induction s using chunkLoop.induct nMax with
  | case1 s hs =>
    rcases hs with hs | hs
    · omega
    · subst hs
      simp [chunkLoop_nil]
  | case2 s hs ih =>
    rw [chunkLoop]
    simp only [not_or] at hs
    rw [dif_neg (by simp [hs.1, hs.2])]
    simp [ih]

lemma chunkLoop_sizes (nMax : ℕ) (s : List Char) :
    ∀ c ∈ chunkLoop nMax s, c.length ≤ nMax := by
  induction s using chunkLoop.induct nMax with
  | case1 s hs =>
    rcases hs with hs | hs
    · subst hs
      simp [chunkLoop]
    · subst hs
      simp [chunkLoop_nil]
  | case2 s hs ih =>
    rw [chunkLoop]
    simp only [not_or] at hs
    rw [dif_neg (by simp [hs.1, hs.2])]
    intro c hc
    rcases List.mem_cons.mp hc with hc | hc
    · subst hc
      simpa using List.length_take_le nMax s
    · exact ih c hc

lemma ceil_div_pos_eval (len nMax : ℕ) (h : 0 < nMax) (hl : 0 < len) :
    (len + nMax - 1) / nMax = (len - 1) / nMax + 1 := by
  have hrw : len + nMax - 1 = (len - 1) + nMax := by omega
  rw [hrw, Nat.add_div_right _ h]

lemma chunkLoop_length (nMax : ℕ) (h : 0 < nMax) (s : List Char) (hs : s ≠ []) :
    (chunkLoop nMax s).length = (s.length + nMax - 1) / nMax := by
  induction s using chunkLoop.induct nMax with
  | case1 s hcond =>
    rcases hcond with hc | hc
    · omega
    · exact absurd hc hs
  | case2 s hcond ih =>
    simp only [not_or] at hcond
    rw [chunkLoop, dif_neg (by simp [hcond.1, hcond.2])]
    have hlen : 0 < s.length := List.length_pos.mpr hcond.2
    by_cases hdrop : s.drop nMax = []
    · have hle : s.length ≤ nMax := by
        have h2 := congrArg List.length hdrop
        simp only [List.length_drop, List.length_nil] at h2
        omega
      rw [List.length_cons, hdrop, chunkLoop_nil]
      rw [ceil_div_pos_eval _ _ h hlen]
      have hz : (s.length - 1) / nMax = 0 := Nat.div_eq_of_lt (by omega)
      simp [hz]
    · rw [List.length_cons, ih hdrop]
      rw [List.length_drop]
      have hgt : nMax < s.length := by
        by_contra hcon
        push_neg at hcon
        exact hdrop (List.drop_eq_nil_of_le hcon)
      have hrw : s.length - nMax + nMax - 1 = s.length - 1 := by omega
      rw [hrw, ceil_div_pos_eval _ _ h hlen]

/-- C4: for every string d and maxSize bigger than 0, chunking returns a single
chunk equal to d when d fits (also when d is empty), otherwise the ceiling of
length divided by maxSize contiguous slices of at most maxSize characters, and
concatenating the chunks in order reconstructs d with no loss and no overlap. -/
theorem C4_chunk_roundtrip (d : List Char) (nMax : ℕ) (h : 0 < nMax) :
    (d.length ≤ nMax → chunkString d nMax = [d]) ∧
    (chunkString d nMax).join = d ∧
    (chunkString d nMax).length = (if d = [] then 1 else (d.length + nMax - 1) / nMax) ∧
    (∀ c ∈ chunkString d nMax, c.length ≤ nMax) := by
  unfold chunkString
  by_cases hle : d.length ≤ nMax
  · rw [if_pos hle]
    refine ⟨fun _ => rfl, by simp, ?_, ?_⟩
    · by_cases hd : d = []
      · simp [hd]
      · rw [if_neg hd]
        have hdl : 0 < d.length := List.length_pos.mpr hd
        rw [ceil_div_pos_eval _ _ h hdl, Nat.div_eq_of_lt (by omega)]
        simp
    · intro c hc
      exact List.mem_singleton.mp hc ▸ hle
  · rw [if_neg hle]
    push_neg at hle
    have hd : d ≠ [] := by
      intro hcon
      subst hcon
      simp at hle
    refine ⟨fun hcon => absurd hcon (by omega), chunkLoop_join nMax h d, ?_, chunkLoop_sizes nMax d⟩
    rw [if_neg hd]
    exact chunkLoop_length nMax h d hd

/-- Witness for C4 at a concrete input: five characters with maximum size two. -/
theorem C4_chunk_roundtrip_witness :
    (chunkString ("abcde".toList) 2).join = ("abcde".toList) ∧
    (chunkString ("abcde".toList) 2).length = 3 := by
  have h := C4_chunk_roundtrip ("abcde".toList) 2 (by decide)
  refine ⟨h.2.1, ?_⟩
  rw [h.2.2.1]
  decide

/-! ## Literal iterative model of chunkString

chunkStringIter models the source loop exactly: an integer loop index i
starting at 0 and stepping by nMax, pushing slice(i, i + nMax) while
i < length.  A fuel argument counts loop iterations; returning none means the
loop has not terminated within the given number of iterations. -/

/-- Clamp of one slice argument as JavaScript String.prototype.slice does:
negative values count from the end, then the result is clamped to the string. -/
def jsSliceClamp (len : ℕ) (x : ℤ) : ℕ :=
  if x < 0 then (x + len).toNat else min x.toNat len

/-- Model of JavaScript String.prototype.slice with two integer arguments. -/
def jsSlice (s : List Char) (a b : ℤ) : List Char :=
  (s.take (jsSliceClamp s.length b)).drop (jsSliceClamp s.length a)

/-- The slicing loop of chunkString with an explicit iteration budget. -/
def chunkIterGo (s : List Char) (nMax : ℤ) : ℕ → ℤ → List (List Char) → Option (List (List Char))
  | 0, i, acc => if i < (s.length : ℤ) then none else some acc
  | fuel + 1, i, acc =>
    if i < (s.length : ℤ) then
      chunkIterGo s nMax fuel (i + nMax) (acc ++ [jsSlice s i (i + nMax)])
    else some acc

/-- chunkString from AIReviewer.js, modeled literally: the guard returns the
whole text as one chunk, otherwise the for loop runs with the given budget. -/
def chunkStringIter (strText : List Char) (nMax : ℤ) (fuel : ℕ) : Option (List (List Char)) :=
  if (strText.length : ℤ) ≤ nMax then some [strText] else chunkIterGo strText nMax fuel 0 []

/-- The chunk list built by AIReviewer.reviewDiffForFile: the only call site of
chunkString in the repository passes the fixed maximum size 12000. -/
def reviewChunks (strDiff : List Char) : List (List Char) :=
  chunkString strDiff 12000

lemma jsSlice_step (s : List Char) (i m : ℕ) (hm : 0 < m) :
    jsSlice s (i : ℤ) ((i : ℤ) + (m : ℤ)) = (s.drop i).take m := by
  unfold jsSlice jsSliceClamp
  have hcast : ((i : ℤ) + (m : ℤ)) = ((i + m : ℕ) : ℤ) := by push_cast; ring
  rw [hcast]
  rw [if_neg (by omega), if_neg (by omega)]
  simp only [Int.toNat_ofNat]
  by_cases hi : s.length ≤ i
  · have h1 : min i s.length = s.length := by omega
    have h2 : min (i + m) s.length = s.length := by omega
    rw [h1, h2, List.take_length, List.drop_eq_nil_of_le (le_refl _), List.drop_eq_nil_of_le hi]
    simp
  · push_neg at hi
    have h1 : min i s.length = i := by omega
    rw [h1, List.drop_take]
    by_cases hin : i + m ≤ s.length
    · have h2 : min (i + m) s.length = i + m := by omega
      rw [h2]
      congr 1
      omega
    · have h2 : min (i + m) s.length = s.length := by omega
      rw [h2]
      have hlen : (s.drop i).length = s.length - i := by simp
      rw [List.take_of_length_le (by omega), List.take_of_length_le (by omega)]

lemma chunkIterGo_eq (m : ℕ) (hm : 0 < m) (s : List Char) :
    ∀ (fuel i : ℕ) (acc : List (List Char)), s.length ≤ i + fuel →
      chunkIterGo s (m : ℤ) fuel (i : ℤ) acc = some (acc ++ chunkLoop m (s.drop i)) := by
  intro fuel
  induction fuel with
  | zero =>
    intro i acc hle
    simp only [Nat.add_zero] at hle
    unfold chunkIterGo
    rw [if_neg (by exact_mod_cast Nat.not_lt.mpr hle)]
    rw [List.drop_eq_nil_of_le hle, chunkLoop_nil, List.append_nil]
  | succ fuel ih =>
    intro i acc hle
    unfold chunkIterGo
    by_cases hlt : i < s.length
    · rw [if_pos (by exact_mod_cast hlt)]
      have hcast : (i : ℤ) + (m : ℤ) = ((i + m : ℕ) : ℤ) := by push_cast; ring
      rw [jsSlice_step s i m hm, hcast, ih (i + m) _ (by omega)]
      have hne : s.drop i ≠ [] := by
        rw [ne_eq, List.drop_eq_nil_iff]
        omega
      conv_rhs => rw [chunkLoop]
      rw [dif_neg (by simp [hne]; omega)]
      rw [List.drop_drop]
      simp
    · rw [if_neg (by exact_mod_cast hlt)]
      rw [List.drop_eq_nil_of_le (by omega), chunkLoop_nil, List.append_nil]

lemma chunkIterGo_none (s : List Char) (z : ℤ) (hz : z ≤ 0) (hs : s ≠ []) :
    ∀ (fuel : ℕ) (i : ℤ) (acc : List (List Char)), i ≤ 0 →
      chunkIterGo s z fuel i acc = none := by
  have hlen : 0 < s.length := List.length_pos.mpr hs
  intro fuel
  induction fuel with
  | zero =>
    intro i acc hi
    unfold chunkIterGo
    rw [if_pos (by exact_mod_cast lt_of_le_of_lt hi (by exact_mod_cast hlen))]
  | succ fuel ih =>
    intro i acc hi
    unfold chunkIterGo
    rw [if_pos (by exact_mod_cast lt_of_le_of_lt hi (by exact_mod_cast hlen))]
    exact ih (i + z) _ (by omega)

/-- C10 (amended): with a positive maximum size the slicing loop of chunkString
terminates within length-many iterations on every input and agrees with the
structural model, returning a non-empty chunk list; with maxSize at most 0 and
a NON-EMPTY input the loop never terminates (no iteration budget suffices); and
the chunk list used by AIReviewer.reviewDiffForFile is exactly chunkString with
the fixed maximum size 12000. -/
theorem C10_chunk_termination (d : List Char) (m : ℕ) (hm : 0 < m) :
    chunkStringIter d (m : ℤ) d.length = some (chunkString d m) ∧
    chunkString d m ≠ [] ∧
    (∀ (z : ℤ) (fuel : ℕ), z ≤ 0 → d ≠ [] → chunkStringIter d z fuel = none) ∧
    reviewChunks d = chunkString d 12000 := by
  refine ⟨?_, ?_, ?_, rfl⟩
  · unfold chunkStringIter chunkString
    by_cases hle : d.length ≤ m
    · rw [if_pos (by exact_mod_cast hle), if_pos hle]
    · rw [if_neg (by exact_mod_cast hle), if_neg hle]
      have := chunkIterGo_eq m hm d d.length 0 [] (by omega)
      simpa using this
  · unfold chunkString
    by_cases hle : d.length ≤ m
    · simp [hle]
    · rw [if_neg hle]
      rw [chunkLoop]
      rw [dif_neg (by push_neg; constructor <;> [omega; (intro hcon; subst hcon; simp at hle)])]
      simp
  · intro z fuel hz hd
    unfold chunkStringIter
    have hlen : 0 < d.length := List.length_pos.mpr hd
    rw [if_neg (by omega)]
    exact chunkIterGo_none d z hz hd fuel 0 [] (le_refl 0)

/-- Witness for C10 at concrete inputs: the loop terminates on a two-character
string with maximum size 1, and diverges for maximum size -2. -/
theorem C10_chunk_termination_witness :
    chunkStringIter ("ab".toList) (1 : ℤ) (("ab".toList).length) = some (chunkString ("ab".toList) 1) ∧
    chunkStringIter ("ab".toList) (-2) 5 = none := by
  have h := C10_chunk_termination ("ab".toList) 1 (by decide)
  exact ⟨h.1, h.2.2.1 (-2) 5 (by decide) (by decide)⟩

/-- C10 counterexample: the claim asserts divergence for every maxSize at most
0 and every string longer than maxSize, but the empty string is longer than the
maximum size -1 and the loop still terminates immediately (even with a zero
iteration budget), returning an empty chunk list. -/
theorem C10_counterexample :
    chunkStringIter [] (-1) 0 = some [] ∧
    (-1 : ℤ) ≤ 0 ∧ (-1 : ℤ) < ((([] : List Char).length : ℤ)) := by
  refine ⟨rfl, by decide, by decide⟩

/-! ## ReviewScheduler: runConcurrent from CodeReviewRunner

The worker pool is modeled as a small-step transition relation.  A worker is
ready (at the top of its while loop), running (awaiting the handler call for a
claimed index), or halted (its claimed index reached the bound and it broke
out).  Claiming is atomic because idx = nNext++ and the bound check are
synchronous JavaScript between awaits; handler completions may interleave in
any order, which is where the recording order of errors diverges from index
order. -/

/-- Status of one worker of runConcurrent. -/
inductive WStatus where
  | ready : WStatus
  | running : ℕ → WStatus
  | halted : WStatus
deriving DecidableEq

/-- State of runConcurrent: the shared cursor nNext, the workers, and the
results and errors arrays.  The fields started and finished instrument the
handler calls: started records each index handed to the handler at claim time,
finished records each index whose handler call has completed. -/
structure SchedState (R E : Type) where
  next : ℕ
  workers : List WStatus
  results : List R
  errors : List (ℕ × E)
  started : List ℕ
  finished : List ℕ
deriving DecidableEq

/-- The index a worker is awaiting, if any. -/
def wIdx : WStatus → Option ℕ
  | .running i => some i
  | _ => none

/-- Indices currently claimed and awaiting handler completion. -/
def runningIdxs (ws : List WStatus) : List ℕ :=
  ws.filterMap wIdx

/-- The worker count exactly as runConcurrent computes it from the concurrency
argument: an absent argument defaults to 3, a zero argument is falsy in
JavaScript and also falls back to 3, and the result is clamped into 1..10. -/
def nMaxOf (c : Option ℤ) : ℕ :=
  (max 1 (min 10 (match c with | none => 3 | some x => if x = 0 then 3 else x))).toNat

/-- Initial scheduler state: cursor 0 and nMax ready workers. -/
def initState (R E : Type) (nMax : ℕ) : SchedState R E :=
  ⟨0, List.replicate nMax .ready, [], [], [], []⟩

/-- One atomic step of runConcurrent under the JavaScript event loop: claiming
the cursor (which either starts a handler call or stops the worker), or the
completion of an awaited handler call (pushing the result when it is defined,
or recording the error pair and letting the worker loop again). -/
inductive SchedStep (n : ℕ) {R E : Type} (handler : ℕ → Except E (Option R)) :
    SchedState R E → SchedState R E → Prop where
  | claim (st : SchedState R E) (i : ℕ)
      (hw : st.workers[i]? = some .ready) (hlt : st.next < n) :
      SchedStep n handler st
        { st with next := st.next + 1,
                  workers := st.workers.set i (.running st.next),
                  started := st.started ++ [st.next] }
  | claimHalt (st : SchedState R E) (i : ℕ)
      (hw : st.workers[i]? = some .ready) (hge : n ≤ st.next) :
      SchedStep n handler st
        { st with next := st.next + 1, workers := st.workers.set i .halted }
  | finishOk (st : SchedState R E) (i idx : ℕ) (r : Option R)
      (hw : st.workers[i]? = some (.running idx)) (hres : handler idx = .ok r) :
      SchedStep n handler st
        { st with workers := st.workers.set i .ready,
                  results := st.results ++ r.toList,
                  finished := st.finished ++ [idx] }
  | finishErr (st : SchedState R E) (i idx : ℕ) (e : E)
      (hw : st.workers[i]? = some (.running idx)) (hres : handler idx = .error e) :
      SchedStep n handler st
        { st with workers := st.workers.set i .ready,
                  errors := st.errors ++ [(idx, e)],
                  finished := st.finished ++ [idx] }

/-- Executions of the worker pool. -/
def SchedReaches (n : ℕ) {R E : Type} (handler : ℕ → Except E (Option R)) :
    SchedState R E → SchedState R E → Prop :=
  Relation.ReflTransGen (SchedStep n handler)

/-- All workers have left their loops. -/
def SchedFinal {R E : Type} (st : SchedState R E) : Prop :=
  ∀ w ∈ st.workers, w = WStatus.halted

/-- The value runConcurrent produces once Promise.all has resolved: throw the
error stored first in the errors array if there is one, otherwise return the
results array. -/
def schedOutcome {R E : Type} (st : SchedState R E) : Except E (List R) :=
  match st.errors with
  | [] => Except.ok st.results
  | (_, e) :: _ => Except.error e

/-- Worker potential for the termination measure. -/
def wPot : WStatus → ℕ
  | .ready => 1
  | .running _ => 2
  | .halted => 0

/-- Termination measure: every scheduler step strictly decreases it. -/
def schedMeasure (n : ℕ) {R E : Type} (st : SchedState R E) : ℕ :=
  3 * (n - st.next) + (st.workers.map wPot).sum

lemma runningIdxs_set_to_running (idx : ℕ) :
    ∀ (ws : List WStatus) (i : ℕ), ws[i]? = some .ready →
      (runningIdxs (ws.set i (.running idx))).Perm (idx :: runningIdxs ws) := by
  intro ws
  induction ws with
  | nil => intro i h; simp at h
  | cons x xs ih =>
    intro i h
    cases i with
    | zero =>
      simp only [List.getElem?_cons_zero, Option.some.injEq] at h
      subst h
      simp [runningIdxs, List.filterMap_cons, wIdx]
    | succ i =>
      simp only [List.getElem?_cons_succ] at h
      rw [List.set_cons_succ]
      simp only [runningIdxs, List.filterMap_cons]
      cases hfx : wIdx x with
      | none => exact ih i h
      | some b =>
        refine ((ih i h).cons b).trans ?_
        exact List.Perm.swap idx b _

lemma runningIdxs_set_from_running (idx : ℕ) :
    ∀ (ws : List WStatus) (i : ℕ), ws[i]? = some (.running idx) →
      (runningIdxs ws).Perm (idx :: runningIdxs (ws.set i .ready)) := by
  intro ws
  induction ws with
  | nil => intro i h; simp at h
  | cons x xs ih =>
    intro i h
    cases i with
    | zero =>
      simp only [List.getElem?_cons_zero, Option.some.injEq] at h
      subst h
      simp [runningIdxs, List.filterMap_cons, wIdx]
    | succ i =>
      simp only [List.getElem?_cons_succ] at h
      rw [List.set_cons_succ]
      simp only [runningIdxs, List.filterMap_cons]
      cases hfx : wIdx x with
      | none => exact ih i h
      | some b =>
        refine ((ih i h).cons b).trans ?_
        exact List.Perm.swap idx b _

lemma runningIdxs_set_to_halted :
    ∀ (ws : List WStatus) (i : ℕ), ws[i]? = some .ready →
      runningIdxs (ws.set i .halted) = runningIdxs ws := by
  intro ws
  induction ws with
  | nil => intro i h; simp at h
  | cons x xs ih =>
    intro i h
    cases i with
    | zero =>
      simp only [List.getElem?_cons_zero, Option.some.injEq] at h
      subst h
      simp [runningIdxs, List.filterMap_cons, wIdx]
    | succ i =>
      simp only [List.getElem?_cons_succ] at h
      rw [List.set_cons_succ]
      simp only [runningIdxs, List.filterMap_cons]
      cases hfx : wIdx x with
      | none => exact ih i h
      | some b =>
        simp only [runningIdxs] at ih
        exact congrArg (fun l => b :: l) (ih i h)

lemma map_wPot_sum_set :
    ∀ (ws : List WStatus) (i : ℕ) (w w' : WStatus), ws[i]? = some w →
      ((ws.set i w').map wPot).sum + wPot w = (ws.map wPot).sum + wPot w' := by
  intro ws
  induction ws with
  | nil => intro i w w' h; simp at h
  | cons x xs ih =>
    intro i w w' h
    cases i with
    | zero =>
      simp only [List.getElem?_cons_zero, Option.some.injEq] at h
      subst h
      simp only [List.set_cons_zero, List.map_cons, List.sum_cons]
      omega
    | succ i =>
      simp only [List.getElem?_cons_succ] at h
      rw [List.set_cons_succ]
      simp only [List.map_cons, List.sum_cons]
      have := ih i w w' h
      omega

lemma runningIdxs_replicate_ready (k : ℕ) :
    runningIdxs (List.replicate k .ready) = [] := by
  rw [runningIdxs, List.filterMap_eq_nil_iff]
  intro a ha
  rw [List.eq_of_mem_replicate ha]
  rfl

lemma runningIdxs_of_final {R E : Type} (st : SchedState R E) (hfin : SchedFinal st) :
    runningIdxs st.workers = [] := by
  rw [runningIdxs, List.filterMap_eq_nil_iff]
  intro a ha
  rw [hfin a ha]
  rfl

/-- Inductive invariant of the worker pool. -/
structure SchedInv (n nMax : ℕ) {R E : Type} (handler : ℕ → Except E (Option R))
    (st : SchedState R E) : Prop where
  workers_len : st.workers.length = nMax
  started_eq : st.started = List.range (min st.next n)
  halted_next : WStatus.halted ∈ st.workers → n ≤ st.next
  balance : (st.started : Multiset ℕ) = (st.finished : Multiset ℕ) + (runningIdxs st.workers : Multiset ℕ)
  errs : ∀ p ∈ st.errors, handler p.1 = Except.error p.2

lemma schedInv_init (n nMax : ℕ) {R E : Type} (handler : ℕ → Except E (Option R)) :
    SchedInv n nMax handler (initState R E nMax) := by
  refine ⟨by simp [initState], by simp [initState], ?_, ?_, by simp [initState]⟩
  · intro hmem
    have := List.eq_of_mem_replicate hmem
    cases this
  · simp [initState, runningIdxs_replicate_ready]

lemma schedInv_step (n nMax : ℕ) {R E : Type} (handler : ℕ → Except E (Option R))
    {st st' : SchedState R E} (hstep : SchedStep n handler st st')
    (hinv : SchedInv n nMax handler st) : SchedInv n nMax handler st' := by
  cases hstep with
  | claim i hw hlt =>
    refine ⟨?_, ?_, ?_, ?_, ?_⟩
    · simpa using hinv.workers_len
    · dsimp only
      rw [hinv.started_eq]
      have h1 : min st.next n = st.next := by omega
      have h2 : min (st.next + 1) n = st.next + 1 := by omega
      rw [h1, h2, List.range_succ]
    · intro hmem
      dsimp only at hmem ⊢
      rcases List.mem_or_eq_of_mem_set hmem with hmem | heq
      · have := hinv.halted_next hmem
        omega
      · cases heq
    · dsimp only
      rw [Multiset.coe_eq_coe.mpr (runningIdxs_set_to_running st.next st.workers i hw)]
      simp only [← Multiset.coe_add, ← Multiset.cons_coe, ← Multiset.singleton_add,
        Multiset.coe_singleton]
      rw [hinv.balance]
      abel
    · exact fun p hp => hinv.errs p hp
  | claimHalt i hw hge =>
    refine ⟨?_, ?_, ?_, ?_, ?_⟩
    · simpa using hinv.workers_len
    · dsimp only
      rw [hinv.started_eq]
      have h1 : min st.next n = n := by omega
      have h2 : min (st.next + 1) n = n := by omega
      rw [h1, h2]
    · intro _
      dsimp only
      omega
    · dsimp only
      rw [runningIdxs_set_to_halted st.workers i hw]
      exact hinv.balance
    · exact fun p hp => hinv.errs p hp
  | finishOk i idx r hw hres =>
    refine ⟨?_, ?_, ?_, ?_, ?_⟩
    · simpa using hinv.workers_len
    · exact hinv.started_eq
    · intro hmem
      dsimp only at hmem ⊢
      rcases List.mem_or_eq_of_mem_set hmem with hmem | heq
      · exact hinv.halted_next hmem
      · cases heq
    · dsimp only
      have hperm := Multiset.coe_eq_coe.mpr (runningIdxs_set_from_running idx st.workers i hw)
      rw [hinv.balance, hperm]
      simp only [← Multiset.coe_add, ← Multiset.cons_coe, ← Multiset.singleton_add,
        Multiset.coe_singleton]
      abel
    · exact fun p hp => hinv.errs p hp
  | finishErr i idx e hw hres =>
    refine ⟨?_, ?_, ?_, ?_, ?_⟩
    · simpa using hinv.workers_len
    · exact hinv.started_eq
    · intro hmem
      dsimp only at hmem ⊢
      rcases List.mem_or_eq_of_mem_set hmem with hmem | heq
      · exact hinv.halted_next hmem
      · cases heq
    · dsimp only
      have hperm := Multiset.coe_eq_coe.mpr (runningIdxs_set_from_running idx st.workers i hw)
      rw [hinv.balance, hperm]
      simp only [← Multiset.coe_add, ← Multiset.cons_coe, ← Multiset.singleton_add,
        Multiset.coe_singleton]
      abel
    · intro p hp
      dsimp only at hp
      rcases List.mem_append.mp hp with hp | hp
      · exact hinv.errs p hp
      · rw [List.mem_singleton.mp hp]
        exact hres

lemma schedInv_reach (n nMax : ℕ) {R E : Type} (handler : ℕ → Except E (Option R))
    {st : SchedState R E} (h : SchedReaches n handler (initState R E nMax) st) :
    SchedInv n nMax handler st := by
  induction h with
  | refl => exact schedInv_init n nMax handler
  | tail _ hstep ih => exact schedInv_step n nMax handler hstep ih

lemma sched_finished_perm (n nMax : ℕ) (hpos : 1 ≤ nMax) {R E : Type}
    (handler : ℕ → Except E (Option R)) {st : SchedState R E}
    (hreach : SchedReaches n handler (initState R E nMax) st) (hfin : SchedFinal st) :
    st.finished.Perm (List.range n) := by
  have hinv := schedInv_reach n nMax handler hreach
  have hbal := hinv.balance
  rw [runningIdxs_of_final st hfin] at hbal
  have hne : st.workers ≠ [] := by
    intro hcon
    have := hinv.workers_len
    rw [hcon] at this
    simp at this
    omega
  obtain ⟨w, hw⟩ := List.exists_mem_of_ne_nil _ hne
  have hhalt : WStatus.halted ∈ st.workers := by
    rw [← hfin w hw]
    exact hw
  have hnext := hinv.halted_next hhalt
  have hstarted : st.started = List.range n := by
    rw [hinv.started_eq, min_eq_right hnext]
  rw [hstarted] at hbal
  simp only [Multiset.coe_nil, add_zero] at hbal
  exact (Multiset.coe_eq_coe.mp hbal).symm

lemma sched_progress (n : ℕ) {R E : Type} (handler : ℕ → Except E (Option R))
    (st : SchedState R E) (hnf : ¬ SchedFinal st) :
    ∃ st', SchedStep n handler st st' := by
  unfold SchedFinal at hnf
  push_neg at hnf
  obtain ⟨w, hwmem, hwne⟩ := hnf
  obtain ⟨i, hi⟩ := List.mem_iff_getElem?.mp hwmem
  cases w with
  | ready =>
    by_cases hlt : st.next < n
    · exact ⟨_, SchedStep.claim st i hi hlt⟩
    · exact ⟨_, SchedStep.claimHalt st i hi (by omega)⟩
  | running idx =>
    cases hres : handler idx with
    | ok r => exact ⟨_, SchedStep.finishOk st i idx r hi hres⟩
    | error e => exact ⟨_, SchedStep.finishErr st i idx e hi hres⟩
  | halted => exact absurd rfl hwne

lemma schedMeasure_decreases (n : ℕ) {R E : Type} (handler : ℕ → Except E (Option R))
    {st st' : SchedState R E} (hstep : SchedStep n handler st st') :
    schedMeasure n st' < schedMeasure n st := by
  cases hstep with
  | claim i hw hlt =>
    have hsum := map_wPot_sum_set st.workers i .ready (.running st.next) hw
    simp only [wPot] at hsum
    unfold schedMeasure
    dsimp only
    omega
  | claimHalt i hw hge =>
    have hsum := map_wPot_sum_set st.workers i .ready .halted hw
    simp only [wPot] at hsum
    unfold schedMeasure
    dsimp only
    omega
  | finishOk i idx r hw hres =>
    have hsum := map_wPot_sum_set st.workers i (.running idx) .ready hw
    simp only [wPot] at hsum
    unfold schedMeasure
    dsimp only
    omega
  | finishErr i idx e hw hres =>
    have hsum := map_wPot_sum_set st.workers i (.running idx) .ready hw
    simp only [wPot] at hsum
    unfold schedMeasure
    dsimp only
    omega

lemma nMaxOf_bounds (c : Option ℤ) : 1 ≤ nMaxOf c ∧ nMaxOf c ≤ 10 := by
  unfold nMaxOf
  rcases c with _ | x
  · decide
  · by_cases hx : x = 0
    · subst hx
      decide
    · simp only [if_neg hx]
      omega

/-- C2: for every taskCount and every concurrency argument, the worker count is
clamped into 1..10 with 3 as the default for an absent argument, and in every
complete execution of the worker pool the instrumented list of completed
handler calls is a permutation of the indices below taskCount: every index is
processed exactly once, none skipped and none duplicated.  Moreover every
scheduler step strictly decreases a natural-number measure (so every execution
terminates) and every non-final state has a successor (workers never get
stuck, so once no indices remain all workers halt). -/
theorem C2_scheduler_exactly_once {R E : Type} (taskCount : ℕ) (c : Option ℤ)
    (handler : ℕ → Except E (Option R)) (st : SchedState R E)
    (hreach : SchedReaches taskCount handler (initState R E (nMaxOf c)) st)
    (hfin : SchedFinal st) :
    (1 ≤ nMaxOf c ∧ nMaxOf c ≤ 10 ∧ nMaxOf none = 3) ∧
    st.finished.Perm (List.range taskCount) ∧
    (∀ s s' : SchedState R E, SchedStep taskCount handler s s' →
      schedMeasure taskCount s' < schedMeasure taskCount s) ∧
    (∀ s : SchedState R E, ¬ SchedFinal s → ∃ s', SchedStep taskCount handler s s') := by
  obtain ⟨h1, h2⟩ := nMaxOf_bounds c
  refine ⟨⟨h1, h2, by decide⟩, ?_, ?_, ?_⟩
  · exact sched_finished_perm taskCount (nMaxOf c) h1 handler hreach hfin
  · exact fun s s' hs => schedMeasure_decreases taskCount handler hs
  · exact fun s hs => sched_progress taskCount handler s hs

/-- Witness for C2: a complete two-step-per-index execution with one worker and
one task, checked concretely. -/
theorem C2_scheduler_exactly_once_witness :
    ((⟨2, [WStatus.halted], [0], [], [0], [0]⟩ : SchedState ℕ Unit)).finished.Perm
      (List.range 1) := by
  have hmax : nMaxOf (some 1) = 1 := by decide
  have hreach : SchedReaches 1 (fun _ => Except.ok (some 0))
      (initState ℕ Unit (nMaxOf (some 1)))
      (⟨2, [WStatus.halted], [0], [], [0], [0]⟩ : SchedState ℕ Unit) := by
    rw [hmax]
    refine Relation.ReflTransGen.head
      (SchedStep.claim (initState ℕ Unit 1) 0 rfl (by decide)) ?_
    refine Relation.ReflTransGen.head (SchedStep.finishOk _ 0 0 (some 0) rfl rfl) ?_
    refine Relation.ReflTransGen.head (SchedStep.claimHalt _ 0 rfl (by decide)) ?_
    exact Relation.ReflTransGen.refl
  exact (C2_scheduler_exactly_once 1 (some 1) (fun _ => Except.ok (some 0)) _ hreach
    (fun w hw => List.mem_singleton.mp hw)).2.1

/-- Handler used in the C3 scheduler traces: the call for index i fails with
error value 10 + i. -/
def errH : ℕ → Except ℕ (Option ℕ) :=
  fun i => Except.error (10 + i)

/-- C3 counterexample: a complete execution with two tasks and two workers in
which the handler call for index 1 completes (and records its failure) before
the one for index 0.  Both failures are recorded, the lowest recorded index is
0 with error value 10, yet the scheduler raises error value 11, the first
RECORDED failure, refuting the lowest-index part of the claim. -/
theorem C3_counterexample :
    SchedReaches 2 errH (initState ℕ ℕ 2)
      (⟨4, [WStatus.halted, WStatus.halted], [], [(1, 11), (0, 10)], [0, 1], [1, 0]⟩ :
        SchedState ℕ ℕ) ∧
    SchedFinal
      (⟨4, [WStatus.halted, WStatus.halted], [], [(1, 11), (0, 10)], [0, 1], [1, 0]⟩ :
        SchedState ℕ ℕ) ∧
    (0, 10) ∈ (⟨4, [WStatus.halted, WStatus.halted], [], [(1, 11), (0, 10)], [0, 1], [1, 0]⟩ :
        SchedState ℕ ℕ).errors ∧
    schedOutcome
      (⟨4, [WStatus.halted, WStatus.halted], [], [(1, 11), (0, 10)], [0, 1], [1, 0]⟩ :
        SchedState ℕ ℕ) = Except.error 11 ∧
    (11 : ℕ) ≠ 10 := by
  refine ⟨?_, ?_, by decide, rfl, by decide⟩
  · refine Relation.ReflTransGen.head
      (SchedStep.claim (initState ℕ ℕ 2) 0 rfl (by decide)) ?_
    refine Relation.ReflTransGen.head (SchedStep.claim _ 1 rfl (by decide)) ?_
    refine Relation.ReflTransGen.head (SchedStep.finishErr _ 1 1 11 rfl rfl) ?_
    refine Relation.ReflTransGen.head (SchedStep.finishErr _ 0 0 10 rfl rfl) ?_
    refine Relation.ReflTransGen.head (SchedStep.claimHalt _ 0 rfl (by decide)) ?_
    refine Relation.ReflTransGen.head (SchedStep.claimHalt _ 1 rfl (by decide)) ?_
    exact Relation.ReflTransGen.refl
  · intro w hw
    rcases List.mem_cons.mp hw with h | h
    · exact h
    · exact List.mem_singleton.mp h

/-- C3 (amended): in every complete execution, every recorded error pair is a
genuine handler failure for its index, all indices below taskCount are still
processed exactly once (a failing worker records the failure and keeps
claiming, leaving other workers unaffected), and if any failure was recorded
the outcome after all workers drain is the FIRST RECORDED failure (recording
order, not necessarily the lowest index) with no result list returned to the
caller. -/
theorem C3_error_policy {R E : Type} (taskCount nMax : ℕ) (hpos : 1 ≤ nMax)
    (handler : ℕ → Except E (Option R)) (st : SchedState R E)
    (hreach : SchedReaches taskCount handler (initState R E nMax) st)
    (hfin : SchedFinal st) :
    (∀ p ∈ st.errors, handler p.1 = Except.error p.2) ∧
    st.finished.Perm (List.range taskCount) ∧
    (∀ p, st.errors.head? = some p → schedOutcome st = Except.error p.2) ∧
    (st.errors ≠ [] → ∀ rs : List R, schedOutcome st ≠ Except.ok rs) := by
  have hinv := schedInv_reach taskCount nMax handler hreach
  refine ⟨hinv.errs, sched_finished_perm taskCount nMax hpos handler hreach hfin, ?_, ?_⟩
  · intro p hp
    unfold schedOutcome
    cases herr : st.errors with
    | nil => rw [herr] at hp; simp at hp
    | cons q qs =>
      rw [herr] at hp
      simp only [List.head?_cons, Option.some.injEq] at hp
      subst hp
      rfl
  · intro hne rs
    unfold schedOutcome
    cases herr : st.errors with
    | nil => exact absurd herr hne
    | cons q qs => simp

/-- Witness for C3 at a concrete input: one worker, one task, a failing
handler; the outcome is the recorded error and the index was still processed. -/
theorem C3_error_policy_witness :
    schedOutcome (⟨2, [WStatus.halted], [], [(0, 10)], [0], [0]⟩ : SchedState ℕ ℕ) =
      Except.error 10 ∧
    ((⟨2, [WStatus.halted], [], [(0, 10)], [0], [0]⟩ : SchedState ℕ ℕ)).finished.Perm
      (List.range 1) := by
  have hreach : SchedReaches 1 errH (initState ℕ ℕ 1)
      (⟨2, [WStatus.halted], [], [(0, 10)], [0], [0]⟩ : SchedState ℕ ℕ) := by
    refine Relation.ReflTransGen.head
      (SchedStep.claim (initState ℕ ℕ 1) 0 rfl (by decide)) ?_
    refine Relation.ReflTransGen.head (SchedStep.finishErr _ 0 0 10 rfl rfl) ?_
    refine Relation.ReflTransGen.head (SchedStep.claimHalt _ 0 rfl (by decide)) ?_
    exact Relation.ReflTransGen.refl
  have h := C3_error_policy 1 1 (le_refl 1) errH _ hreach
    (fun w hw => List.mem_singleton.mp hw)
  exact ⟨h.2.2.1 (0, 10) rfl, h.2.1⟩

/-! ## DescribeParser: the regex-driven parsers of CodeReviewRunner

Each JavaScript regex is modeled by an executable matcher that follows the
backtracking order of the source pattern (greedy runs tried longest first,
lazy groups tried shortest first). -/

/-- Acceptance of the tail after the lazy depot-path group of the pattern
used by parseDepotFilesFromDescribe: an optional revision suffix (hash sign
followed by at least one non-space) and then whitespace or end of input. -/
def acceptTail : List Char → Bool
  | [] => true
  | c :: rest =>
    if isWs c then true
    else if c = '#' then
      match rest with
      | [] => false
      | d :: _ => !(isWs d)
    else false

/-- Lazy expansion of the non-space path characters after the depot marker:
stop at the first boundary whose tail is accepted. -/
def grabGo (acc : List Char) : List Char → Option (List Char)
  | [] => some acc.reverse
  | c :: rest => if acceptTail (c :: rest) then some acc.reverse else grabGo (c :: acc) rest

/-- The lazy group needs at least one non-space character after the marker. -/
def grabPath : List Char → Option (List Char)
  | [] => none
  | c :: rest => if isWs c then none else grabGo [c] rest

/-- Scan of the header body for the first position where the depot-path
pattern matches: a double slash followed by the lazy non-space run. -/
def depotFromBody : List Char → Option (List Char)
  | [] => none
  | c :: rest =>
    if c = '/' then
      match rest with
      | [] => none
      | d :: rest2 =>
        if d = '/' then
          match grabPath rest2 with
          | some p => some ('/' :: '/' :: p)
          | none => depotFromBody rest
        else depotFromBody rest
    else depotFromBody rest

/-- Minimal-first expansion of the lazy middle group of the header pattern of
parseDepotFilesFromDescribe: the capture is followed by at least one
whitespace character and the four closing equals signs at end of line. -/
def headerMid (after : List Char) : Option (List Char) :=
  (List.range after.length).findSome? fun k =>
    let m := k + 1
    let mid := after.take m
    let leftover := after.drop m
    if mid.all dotChar ∧ 5 ≤ leftover.length ∧
        leftover.drop (leftover.length - 4) = ("====".toList) ∧
        (leftover.take (leftover.length - 4)).all isWs then
      some mid
    else none

/-- Capture of the header pattern of parseDepotFilesFromDescribe on one line:
four equals signs, a greedy whitespace run (longest first), the lazy capture,
whitespace and four equals signs at end of line. -/
def headerCapture (line : List Char) : Option (List Char) :=
  if line.take 4 = ("====".toList) then
    let rest := line.drop 4
    let wsLen := (rest.takeWhile isWs).length
    (List.range wsLen).findSome? fun j => headerMid (rest.drop (wsLen - j))
  else none

/-- Depot path extracted from one describe line, if its header matches. -/
def headerPathOfLine (line : List Char) : Option (List Char) :=
  match headerCapture line with
  | none => none
  | some body => depotFromBody body

/-- All header-derived depot paths of a describe output in line order, before
deduplication (the arrFiles array of parseDepotFilesFromDescribe). -/
def rawHeaderPaths (strDescribe : List Char) : List (List Char) :=
  (splitLines strDescribe).filterMap headerPathOfLine

/-- The final filter of parseDepotFilesFromDescribe: keep the first occurrence
of each path, tracked by the seen set. -/
def dedupFirstAux (seen : List (List Char)) : List (List Char) → List (List Char)
  | [] => []
  | x :: xs => if x ∈ seen then dedupFirstAux seen xs else x :: dedupFirstAux (x :: seen) xs

/-- parseDepotFilesFromDescribe from CodeReviewRunner. -/
def parseDepotFilesFromDescribe (strDescribe : List Char) : List (List Char) :=
  dedupFirstAux [] (rawHeaderPaths strDescribe)

/-- The generic header test reHeader of extractUnifiedDiffForFile: four equals
signs, space, at least one dot-character, space and four equals signs. -/
def isHeaderLine (line : List Char) : Bool :=
  line.take 5 == ("==== ".toList) && decide (11 ≤ line.length) &&
  line.drop (line.length - 5) == (" ====".toList) &&
  ((line.drop 5).take (line.length - 10)).all dotChar

/-- Search for the escaped depot path inside the middle of a header line, with
arbitrary dot-characters on both sides. -/
def dotInfixSearch (path mid : List Char) : Bool :=
  (List.range (mid.length + 1)).any fun i =>
    (mid.take i).all dotChar && (mid.drop i).take path.length == path &&
      ((mid.drop (i + path.length)).all dotChar)

/-- The per-file header test reThisFile of extractUnifiedDiffForFile: the
escaped depot path appears between the opening marker and the closing equals
signs (no space required before the closing group in this pattern). -/
def matchesFileHeader (path line : List Char) : Bool :=
  line.take 5 == ("==== ".toList) && decide (9 ≤ line.length) &&
  line.drop (line.length - 4) == ("====".toList) &&
  dotInfixSearch path ((line.drop 5).take (line.length - 9))

/-- Split on newline only, matching how the multiline anchors of the binary
regex segment the already-joined diff body. -/
def splitNL : List Char → List (List Char)
  | [] => [[]]
  | '\n' :: rest => [] :: splitNL rest
  | c :: rest =>
    match splitNL rest with
    | [] => [[c]]
    | l :: ls => (c :: l) :: ls

/-- Search for the mandatory middle separator of the binary-files pattern with
a non-empty file name on each side. -/
def andSplitSearch (mid : List Char) : Bool :=
  (List.range mid.length).any fun i =>
    decide (1 ≤ i) && (mid.drop i).take 5 == (" and ".toList) && decide (i + 5 < mid.length)

/-- One line matching the anchored binary-files marker pattern.  The two lazy
name groups are dot-characters, so a line containing a stray carriage return
cannot match. -/
def matchesBinaryLine (l : List Char) : Bool :=
  l.all (fun c => !(c == '\r')) && l.take 13 == ("Binary files ".toList) &&
  decide (27 ≤ l.length) && l.drop (l.length - 7) == (" differ".toList) &&
  andSplitSearch ((l.drop 13).take (l.length - 20))

/-- Substring test: the needle occurs contiguously inside the haystack. -/
def containsSeg (needle hay : List Char) : Bool :=
  (List.range (hay.length + 1)).any fun i => (hay.drop i).take needle.length == needle

/-- Case-insensitive search for the parenthesized binary marker. -/
def containsBinaryWord (l : List Char) : Bool :=
  containsSeg ("(binary)".toList) (l.map Char.toLower)

/-- The binary test applied by extractUnifiedDiffForFile to the joined body. -/
def binaryBody (strBody : List Char) : Bool :=
  (splitNL strBody).any matchesBinaryLine || containsBinaryWord strBody

/-- The diff section located for a depot file: the lines strictly between the
first header containing the file and the next generic header (or end of
text), joined with newlines.  none when no header matches. -/
def locateBody (strDescribe strDepotFile : List Char) : Option (List Char) :=
  let arrLines := splitLines strDescribe
  match arrLines.findIdx? (fun l => matchesFileHeader strDepotFile l) with
  | none => none
  | some i => some (joinLines ((arrLines.drop (i + 1)).takeWhile (fun l => !isHeaderLine l)))

/-- extractUnifiedDiffForFile from CodeReviewRunner: empty when the file has no
header and empty when the located body matches a binary marker. -/
def extractUnifiedDiffForFile (strDescribe strDepotFile : List Char) : List Char :=
  match locateBody strDescribe strDepotFile with
  | none => []
  | some strBody => if binaryBody strBody then [] else strBody

/-- A file with its extracted diff text (the strDepotFile and strDiff record
fields of the source). -/
structure FileDiffRec where
  strDepotFile : List Char
  strDiff : List Char
deriving DecidableEq

/-- getDiffsForFiles from CodeReviewRunner: keep only files whose extracted
diff is truthy and has non-empty trim. -/
def getDiffsForFiles (strDescribe : List Char) : List (List Char) → List FileDiffRec
  | [] => []
  | f :: rest =>
    if extractUnifiedDiffForFile strDescribe f ≠ [] ∧
        jsTrim (extractUnifiedDiffForFile strDescribe f) ≠ [] then
      ⟨f, extractUnifiedDiffForFile strDescribe f⟩ :: getDiffsForFiles strDescribe rest
    else getDiffsForFiles strDescribe rest

/-- A parsed revision-summary entry (file, rev and action in the source). -/
structure RevEntry where
  file : List Char
  rev : ℕ
  action : List Char
deriving DecidableEq

/-- Tail match after the lazy path group of the summary-line pattern: a hash
sign, a greedy digit run, a greedy whitespace run and at least one word
character. -/
def revTail (path : List Char) : List Char → Option RevEntry
  | [] => none
  | c :: rest =>
    if c = '#' then
      let ds := rest.takeWhile isDigitCh
      if ds = [] then none
      else
        let r3 := rest.drop ds.length
        let w := r3.takeWhile isWs
        if w = [] then none
        else
          let act := (r3.drop w.length).takeWhile isWordCh
          if act = [] then none else some ⟨path, natOfDigits ds, act⟩
    else none

/-- Lazy expansion of the non-space path characters of the summary-line
pattern, shortest first. -/
def revSearch (acc : List Char) : List Char → Option RevEntry
  | [] => none
  | c :: rest =>
    if isWs c then none
    else
      match revTail ('/' :: '/' :: (acc ++ [c])) rest with
      | some e => some e
      | none => revSearch (acc ++ [c]) rest

/-- One line of describe -s output parsed by the summary pattern: three dots,
whitespace, the lazy depot path, hash, revision digits, whitespace, action. -/
def parseSummaryLine (l : List Char) : Option RevEntry :=
  if l.take 3 = ("...".toList) then
    let rest := l.drop 3
    let w := rest.takeWhile isWs
    if w = [] then none
    else
      let r2 := rest.drop w.length
      if r2.take 2 = ("//".toList) then revSearch [] (r2.drop 2) else none
  else none

/-- parseFilesAndRevsFromDescribeSummary from CodeReviewRunner: one entry per
matching line, in line order, with no deduplication. -/
def parseFilesAndRevsFromDescribeSummary (strDescribeS : List Char) : List RevEntry :=
  (splitLines strDescribeS).filterMap parseSummaryLine

/-- The diff2 header test of extractUnifiedBodyFromDiff2Output: four equals
signs followed by at least one whitespace character. -/
def isDiff2Header (l : List Char) : Bool :=
  l.take 4 == ("====".toList) &&
  (match l.drop 4 with
   | c :: _ => isWs c
   | [] => false)

/-- extractUnifiedBodyFromDiff2Output from CodeReviewRunner: drop everything up
to and including the first diff2 header line; with no header line the start
index stays 0 and the whole text is kept. -/
def extractUnifiedBodyFromDiff2Output (str : List Char) : List Char :=
  let lines := splitLines str
  match lines.findIdx? isDiff2Header with
  | some i => joinLines (lines.drop (i + 1))
  | none => joinLines lines

/-- The fallback source revision computed by buildDiffsViaDiff2FromSummary:
Math.max(1, (rev or 1) - 1), where a zero revision is falsy in JavaScript. -/
def fromRevOf (rev : ℕ) : ℕ :=
  max 1 ((if rev = 0 then 1 else rev) - 1)

/-- The try block body of one loop iteration of buildDiffsViaDiff2FromSummary:
a thrown fetch (none) contributes nothing, a fetched diff2 output contributes
its extracted body when the trimmed body is non-empty. -/
def diff2Step (e : RevEntry) (res : Option (List Char)) (rest : List FileDiffRec) :
    List FileDiffRec :=
  match res with
  | none => rest
  | some full =>
    if jsTrim (extractUnifiedBodyFromDiff2Output full) ≠ [] then
      ⟨e.file, extractUnifiedBodyFromDiff2Output full⟩ :: rest
    else rest

/-- buildDiffsViaDiff2FromSummary from CodeReviewRunner, over already-parsed
entries and an external diff2 collaborator; fetch returns none when the
getUnifiedDiffBetweenRevs call throws.  Revisions are parsed from digit runs,
so the rev-at-most-0 skip of the source is the rev = 0 case here. -/
def buildDiffsViaDiff2FromSummary (entries : List RevEntry)
    (fetch : List Char → ℕ → ℕ → Option (List Char)) : List FileDiffRec :=
  match entries with
  | [] => []
  | e :: rest =>
    if e.action = ("add".toList) ∧ e.rev ≤ 1 then buildDiffsViaDiff2FromSummary rest fetch
    else if e.rev = 0 then buildDiffsViaDiff2FromSummary rest fetch
    else
      diff2Step e (fetch e.file (fromRevOf e.rev) e.rev)
        (buildDiffsViaDiff2FromSummary rest fetch)

/-- The worklist selection of run: the fallback diffs are used exactly when
the primary extraction produced no non-empty file diffs. -/
def worklistOf (primary fallback : List FileDiffRec) : List FileDiffRec :=
  if primary.isEmpty then fallback else primary

/-- The array actually handed to reviewDiffsConcurrently by run: a single
element obtained by concatenating every diff of the worklist twice. -/
def newArrayDiffsOf (arrFileDiffs : List FileDiffRec) : List (List Char) :=
  [arrFileDiffs.foldl (fun acc fd => acc ++ fd.strDiff ++ fd.strDiff) []]

/-- A per-file review result; the depot path is absent (undefined) when the
scheduled element was not a file-diff record. -/
structure ReviewResult where
  strDepotFile : Option (List Char)
  strContent : List Char
deriving DecidableEq

/-- JavaScript template-literal rendering of a possibly-undefined string. -/
def jsShowOpt : Option (List Char) → List Char
  | some s => s
  | none => ("undefined".toList)

/-- The prompt of summarizeAcrossFiles: fixed instruction text followed by all
per-file results joined with file-path headers. -/
def summarizePrompt (arrResults : List ReviewResult) : List Char :=
  ("Create a concise overall code review summary across files. Identify common issues, cross-file risks, and prioritize follow-ups.\n\n".toList) ++
    joinSep ("\n\n".toList)
      (arrResults.map fun r =>
        ("File: ".toList) ++ jsShowOpt r.strDepotFile ++ ("\n---\n".toList) ++
          r.strContent ++ ("\n".toList))

/-- summarizeAcrossFiles from AIReviewer, over an abstract completion
collaborator ai: one call on the joined prompt, prefixed with the fixed
changelist header. -/
def summarizeAcrossFiles (ai : List Char → List Char) (arrResults : List ReviewResult)
    (cl : List Char) : List Char :=
  ("# Changelist ".toList) ++ cl ++ (" - Summary\n\n".toList) ++
    ai (summarizePrompt arrResults) ++ ("\n".toList)

/-- writeSummaryFile from CodeReviewRunner: no reviewer call and no file when
there are no results, otherwise the summary content. -/
def writeSummaryContent (ai : List Char → List Char) (arrResults : List ReviewResult)
    (cl : List Char) : Option (List Char) :=
  if arrResults.isEmpty then none else some (summarizeAcrossFiles ai arrResults cl)

/-- The summary step of run: writeSummaryFile is invoked only when a summary
was requested. -/
def runSummaryOutput (ai : List Char → List Char) (bSummary : Bool)
    (arrResults : List ReviewResult) (cl : List Char) : Option (List Char) :=
  if bSummary then writeSummaryContent ai arrResults cl else none

/-! ## Properties of the describe parsers -/

lemma dedupFirstAux_sublist (l : List (List Char)) :
    ∀ seen, (dedupFirstAux seen l).Sublist l := by
  induction l with
  | nil => intro seen; simp [dedupFirstAux]
  | cons x xs ih =>
    intro seen
    unfold dedupFirstAux
    by_cases hx : x ∈ seen
    · rw [if_pos hx]
      exact (ih seen).cons x
    · rw [if_neg hx]
      exact (ih (x :: seen)).cons₂ x

lemma mem_dedupFirstAux (a : List Char) (l : List (List Char)) :
    ∀ seen, a ∈ dedupFirstAux seen l ↔ (a ∈ l ∧ a ∉ seen) := by
  induction l with
  | nil => intro seen; simp [dedupFirstAux]
  | cons x xs ih =>
    intro seen
    unfold dedupFirstAux
    by_cases hx : x ∈ seen
    · rw [if_pos hx, ih seen]
      constructor
      · rintro ⟨h1, h2⟩
        exact ⟨List.mem_cons_of_mem _ h1, h2⟩
      · rintro ⟨h1, h2⟩
        rcases List.mem_cons.mp h1 with h | h
        · subst h
          exact absurd hx h2
        · exact ⟨h, h2⟩
    · rw [if_neg hx, List.mem_cons, ih (x :: seen)]
      constructor
      · rintro (h | ⟨h1, h2⟩)
        · subst h
          exact ⟨List.mem_cons_self _ _, hx⟩
        · exact ⟨List.mem_cons_of_mem _ h1, fun hc => h2 (List.mem_cons_of_mem _ hc)⟩
      · rintro ⟨h1, h2⟩
        rcases List.mem_cons.mp h1 with h | h
        · exact Or.inl h
        · by_cases hax : a = x
          · exact Or.inl hax
          · refine Or.inr ⟨h, fun hc => ?_⟩
            rcases List.mem_cons.mp hc with hc | hc
            · exact hax hc
            · exact h2 hc

lemma nodup_dedupFirstAux (l : List (List Char)) :
    ∀ seen, (dedupFirstAux seen l).Nodup := by
  induction l with
  | nil => intro seen; simp [dedupFirstAux]
  | cons x xs ih =>
    intro seen
    unfold dedupFirstAux
    by_cases hx : x ∈ seen
    · rw [if_pos hx]
      exact ih seen
    · rw [if_neg hx]
      refine List.Nodup.cons ?_ (ih (x :: seen))
      intro hc
      exact ((mem_dedupFirstAux x xs (x :: seen)).mp hc).2 (List.mem_cons_self x seen)

/-- C7: parseDepotFilesFromDescribe deduplicates the header-derived depot
paths while preserving first-seen order: the result has no duplicates, is a
subsequence of the raw header-path list (so the surviving occurrences keep
their relative order, i.e. each path keeps its first occurrence position), and
has exactly the same members; on a describe text with headers for paths A, B,
A, C, a malformed header and a stray line (contributing nothing, with no error
raised) the result is exactly A, B, C. -/
theorem C7_parse_file_list_dedup :
    (∀ d : List Char,
      (parseDepotFilesFromDescribe d).Nodup ∧
      (parseDepotFilesFromDescribe d).Sublist (rawHeaderPaths d) ∧
      (∀ x, x ∈ parseDepotFilesFromDescribe d ↔ x ∈ rawHeaderPaths d)) ∧
    parseDepotFilesFromDescribe
        (("==== //depot/a#1 ====\nx\n==== //depot/b#2 ====\ny\n==== //depot/a#1 ====\nz\n==== //depot/c#3 ====\nw\nnot a header\n====broken".toList)) =
      [("//depot/a".toList), ("//depot/b".toList), ("//depot/c".toList)] := by
  refine ⟨fun d => ⟨nodup_dedupFirstAux _ [], dedupFirstAux_sublist _ [], fun x => ?_⟩, by decide⟩
  unfold parseDepotFilesFromDescribe
  rw [mem_dedupFirstAux]
  simp

lemma takeWhile_all_true (p : Char → Bool) :
    ∀ l : List Char, (∀ x ∈ l, p x = true) → l.takeWhile p = l := by
  intro l
  induction l with
  | nil => intro _; rfl
  | cons a t ih =>
    intro h
    rw [List.takeWhile_cons, if_pos (h a (List.mem_cons_self a t))]
    rw [ih (fun x hx => h x (List.mem_cons_of_mem a hx))]

lemma takeWhile_append_stop (p : Char → Bool) (y : Char) (ys : List Char) (hy : p y = false) :
    ∀ xs : List Char, (∀ x ∈ xs, p x = true) →
      (xs ++ y :: ys).takeWhile p = xs := by
  intro xs
  induction xs with
  | nil =>
    intro _
    simp [List.takeWhile_cons, hy]
  | cons a t ih =>
    intro h
    rw [List.cons_append, List.takeWhile_cons, if_pos (h a (List.mem_cons_self a t))]
    rw [ih (fun x hx => h x (List.mem_cons_of_mem a hx))]

lemma isWordCh_not_ws (c : Char) (h : isWordCh c = true) : isWs c = false := by
  by_contra hcon
  rw [Bool.not_eq_false] at hcon
  unfold isWs at hcon
  simp only [Bool.or_eq_true, beq_iff_eq] at hcon
  rcases hcon with ((((h1 | h1) | h1) | h1) | h1) | h1 <;> subst h1 <;> exact absurd h (by decide)

lemma isDigitCh_not_ws (c : Char) (h : isDigitCh c = true) : isWs c = false := by
  by_contra hcon
  rw [Bool.not_eq_false] at hcon
  unfold isWs at hcon
  simp only [Bool.or_eq_true, beq_iff_eq] at hcon
  rcases hcon with ((((h1 | h1) | h1) | h1) | h1) | h1 <;> subst h1 <;> exact absurd h (by decide)

lemma revTail_wellformed (path ds act : List Char) (hds : ds ≠ [])
    (hds2 : ∀ c ∈ ds, isDigitCh c = true) (hact : act ≠ [])
    (hact2 : ∀ c ∈ act, isWordCh c = true) :
    revTail path ('#' :: (ds ++ ' ' :: act)) = some ⟨path, natOfDigits ds, act⟩ := by
  have hwact : (' ' :: act).takeWhile isWs = [' '] := by
    cases act with
    | nil => exact absurd rfl hact
    | cons a t =>
      rw [List.takeWhile_cons, if_pos (by decide), List.takeWhile_cons]
      rw [if_neg (by simp [isWordCh_not_ws a (hact2 a (List.mem_cons_self a t))])]
  rw [revTail, if_pos rfl]
  rw [takeWhile_append_stop isDigitCh ' ' act (by decide) ds hds2]
  dsimp only
  rw [if_neg hds, List.drop_left, hwact]
  rw [if_neg (by simp)]
  rw [show ((' ' :: act).drop ([' '] : List Char).length) = act from rfl]
  rw [takeWhile_all_true isWordCh act hact2]
  rw [if_neg hact]

lemma revSearch_through (tail : List Char) :
    ∀ (p acc : List Char), p ≠ [] → (∀ c ∈ p, isWs c = false ∧ c ≠ '#') →
      ∀ e, revTail ('/' :: '/' :: (acc ++ p)) ('#' :: tail) = some e →
        revSearch acc (p ++ '#' :: tail) = some e := by
  intro p
  induction p with
  | nil => intro acc h; exact absurd rfl h
  | cons c p' ih =>
    intro acc _ hchars e htl
    have hc := hchars c (List.mem_cons_self c p')
    rw [List.cons_append]
    unfold revSearch
    rw [if_neg (by simp [hc.1])]
    cases hp' : p' with
    | nil =>
      subst hp'
      simp only [List.nil_append]
      have : acc ++ [c] ++ [] = acc ++ [c] := by simp
      rw [show acc ++ ([c] : List Char) = acc ++ [c] from rfl] at htl ⊢
      have htl' : revTail ('/' :: '/' :: (acc ++ [c])) ('#' :: tail) = some e := by
        simpa using htl
      rw [htl']
    | cons d p'' =>
      subst hp'
      have hd := hchars d (List.mem_cons_of_mem c (List.mem_cons_self d p''))
      have hnone : revTail ('/' :: '/' :: (acc ++ [c])) ((d :: p'') ++ '#' :: tail) = none := by
        rw [List.cons_append]
        rw [revTail, if_neg hd.2]
      rw [hnone]
      refine ih (acc ++ [c]) (by simp) (fun x hx => hchars x (List.mem_cons_of_mem c hx)) e ?_
      simpa [List.append_assoc] using htl

/-- C8 counterexample: two identical summary lines for the same depot path
produce two entries with the same depotPath, so the claim that only the first
occurrence survives (at most one entry per depotPath) fails on the code, which
performs no deduplication. -/
theorem C8_counterexample :
    parseFilesAndRevsFromDescribeSummary (("... //depot/a#2 edit\n... //depot/a#2 edit".toList)) =
      [⟨("//depot/a".toList), 2, ("edit".toList)⟩, ⟨("//depot/a".toList), 2, ("edit".toList)⟩] ∧
    ¬ ((parseFilesAndRevsFromDescribeSummary
        (("... //depot/a#2 edit\n... //depot/a#2 edit".toList))).map RevEntry.file).Nodup := by
  exact ⟨by decide, by decide⟩

/-- C8 (amended): parseFilesAndRevsFromDescribeSummary produces one entry per
matching line in line order with NO deduplication: every well-formed summary
line parses to its own entry regardless of previously seen depot paths, lines
accumulate compositionally, and a summary repeating a depot path yields one
entry per repetition (duplicates are retained, not ignored). -/
theorem C8_summary_no_dedup :
    (∀ p ds act : List Char, p ≠ [] → (∀ c ∈ p, isWs c = false ∧ c ≠ '#') →
      ds ≠ [] → (∀ c ∈ ds, isDigitCh c = true) → act ≠ [] → (∀ c ∈ act, isWordCh c = true) →
      parseSummaryLine (("... //".toList) ++ p ++ '#' :: (ds ++ ' ' :: act)) =
        some ⟨("//".toList) ++ p, natOfDigits ds, act⟩) ∧
    (∀ ls1 ls2 : List (List Char),
      (ls1 ++ ls2).filterMap parseSummaryLine =
        ls1.filterMap parseSummaryLine ++ ls2.filterMap parseSummaryLine) ∧
    parseFilesAndRevsFromDescribeSummary (("... //depot/a#2 edit\n... //depot/a#2 edit".toList)) =
      [⟨("//depot/a".toList), 2, ("edit".toList)⟩, ⟨("//depot/a".toList), 2, ("edit".toList)⟩] := by
  refine ⟨?_, fun ls1 ls2 => List.filterMap_append ls1 ls2 parseSummaryLine, by decide⟩
  intro p ds act hp hpc hds hdsc hact hactc
  show revSearch [] (p ++ '#' :: (ds ++ ' ' :: act)) =
    some ⟨("//".toList) ++ p, natOfDigits ds, act⟩
  exact revSearch_through (ds ++ ' ' :: act) p [] hp hpc _
    (revTail_wellformed _ ds act hds hdsc hact hactc)

/-- Witness for C8 (amended) at a concrete well-formed line. -/
theorem C8_summary_no_dedup_witness :
    parseSummaryLine (("... //".toList) ++ ("depot/a".toList) ++
        '#' :: (("2".toList) ++ ' ' :: ("edit".toList))) =
      some ⟨("//".toList) ++ ("depot/a".toList), natOfDigits ("2".toList), ("edit".toList)⟩ :=
  C8_summary_no_dedup.1 ("depot/a".toList) ("2".toList) ("edit".toList)
    (by decide) (by decide) (by decide) (by decide) (by decide) (by decide)

/-- C6: when the located diff section body of a file matches a binary marker,
the extraction returns the empty string; and every file diff in the worklist
built by getDiffsForFiles has non-empty, non-whitespace-only text and is the
extraction result for one of the listed files — no FileDiff with empty text is
ever handed to scheduling. -/
theorem C6_binary_exclusion :
    (∀ d p b : List Char, locateBody d p = some b → binaryBody b = true →
      extractUnifiedDiffForFile d p = []) ∧
    (∀ (d : List Char) (files : List (List Char)) (fd : FileDiffRec),
      fd ∈ getDiffsForFiles d files →
      fd.strDiff ≠ [] ∧ jsTrim fd.strDiff ≠ [] ∧ fd.strDepotFile ∈ files ∧
        fd.strDiff = extractUnifiedDiffForFile d fd.strDepotFile) := by
  constructor
  · intro d p b hloc hbin
    unfold extractUnifiedDiffForFile
    rw [hloc]
    show (if binaryBody b = true then ([] : List Char) else b) = []
    rw [if_pos hbin]
  · intro d files
    induction files with
    | nil =>
      intro fd hfd
      simp [getDiffsForFiles] at hfd
    | cons f rest ih =>
      intro fd hfd
      rw [getDiffsForFiles] at hfd
      by_cases hcond : extractUnifiedDiffForFile d f ≠ [] ∧
          jsTrim (extractUnifiedDiffForFile d f) ≠ []
      · rw [if_pos hcond] at hfd
        rcases List.mem_cons.mp hfd with heq | hmem
        · subst heq
          exact ⟨hcond.1, hcond.2, List.mem_cons_self f rest, rfl⟩
        · obtain ⟨h1, h2, h3, h4⟩ := ih fd hmem
          exact ⟨h1, h2, List.mem_cons_of_mem f h3, h4⟩
      · rw [if_neg hcond] at hfd
        obtain ⟨h1, h2, h3, h4⟩ := ih fd hfd
        exact ⟨h1, h2, List.mem_cons_of_mem f h3, h4⟩

/-- Witness for C6 at the two-header scenario of the specification: the binary
file section yields the empty diff, and the one scheduled diff is non-blank. -/
theorem C6_binary_exclusion_witness :
    extractUnifiedDiffForFile
        (("==== //depot/x.txt#1 ====\nl1\nl2\nl3\nl4\nl5\n==== //depot/y.bin#1 ====\nBinary files a and b differ".toList))
        (("//depot/y.bin".toList)) = [] ∧
    jsTrim (FileDiffRec.strDiff ⟨("//depot/x.txt".toList), ("l1\nl2\nl3\nl4\nl5".toList)⟩) ≠ [] := by
  constructor
  · exact C6_binary_exclusion.1 _ _ (("Binary files a and b differ".toList))
      (by decide) (by decide)
  · exact (C6_binary_exclusion.2
      (("==== //depot/x.txt#1 ====\nl1\nl2\nl3\nl4\nl5\n==== //depot/y.bin#1 ====\nBinary files a and b differ".toList))
      [("//depot/x.txt".toList)]
      ⟨("//depot/x.txt".toList), ("l1\nl2\nl3\nl4\nl5".toList)⟩ (by decide)).2.1

/-- C1 exhibit: on a describe text yielding two non-empty FileDiffs, run does
not schedule one task per file: it builds a single scheduled element whose
payload is every diff concatenated twice (lines 231-235 of the runner), so the
task count is 1, not 2, and the scheduled element is a bare string carrying no
depot path. -/
theorem C1_single_task_bug :
    (getDiffsForFiles (("==== //depot/a.txt#2 ====\nA\n==== //depot/b.txt#3 ====\nB".toList))
      (parseDepotFilesFromDescribe
        (("==== //depot/a.txt#2 ====\nA\n==== //depot/b.txt#3 ====\nB".toList)))).length = 2 ∧
    newArrayDiffsOf
        (getDiffsForFiles (("==== //depot/a.txt#2 ====\nA\n==== //depot/b.txt#3 ====\nB".toList))
          (parseDepotFilesFromDescribe
            (("==== //depot/a.txt#2 ====\nA\n==== //depot/b.txt#3 ====\nB".toList)))) =
      [("AABB".toList)] ∧
    (newArrayDiffsOf
        (getDiffsForFiles (("==== //depot/a.txt#2 ====\nA\n==== //depot/b.txt#3 ====\nB".toList))
          (parseDepotFilesFromDescribe
            (("==== //depot/a.txt#2 ====\nA\n==== //depot/b.txt#3 ====\nB".toList))))).length = 1 ∧
    (1 : ℕ) ≠ 2 := by
  exact ⟨by decide, by decide, by decide, by decide⟩

/-- C5: the fallback diff construction skips an entry entirely when its action
is add with revision at most 1 and when its revision is 0; otherwise it
requests exactly the point-to-point diff from max(revision - 1, 1) to the
revision, a failed fetch drops only that file while the remaining entries are
still processed, and a fetched body contributes the file exactly when its trim
is non-empty; moreover the fallback worklist is used only when the primary
extraction produced no diffs. -/
theorem C5_fallback_revision_resolution :
    (∀ (fetch : List Char → ℕ → ℕ → Option (List Char)) (e : RevEntry) (rest : List RevEntry),
      (e.action = ("add".toList) ∧ e.rev ≤ 1 →
        buildDiffsViaDiff2FromSummary (e :: rest) fetch = buildDiffsViaDiff2FromSummary rest fetch) ∧
      (e.rev = 0 →
        buildDiffsViaDiff2FromSummary (e :: rest) fetch = buildDiffsViaDiff2FromSummary rest fetch) ∧
      (¬ (e.action = ("add".toList) ∧ e.rev ≤ 1) → 1 ≤ e.rev →
        fetch e.file (max (e.rev - 1) 1) e.rev = none →
        buildDiffsViaDiff2FromSummary (e :: rest) fetch = buildDiffsViaDiff2FromSummary rest fetch) ∧
      (∀ full, ¬ (e.action = ("add".toList) ∧ e.rev ≤ 1) → 1 ≤ e.rev →
        fetch e.file (max (e.rev - 1) 1) e.rev = some full →
        buildDiffsViaDiff2FromSummary (e :: rest) fetch =
          (if jsTrim (extractUnifiedBodyFromDiff2Output full) ≠ []
           then [⟨e.file, extractUnifiedBodyFromDiff2Output full⟩] else []) ++
            buildDiffsViaDiff2FromSummary rest fetch)) ∧
    (∀ r : ℕ, 1 ≤ r → fromRevOf r = max (r - 1) 1) ∧
    (∀ primary fallback : List FileDiffRec, primary ≠ [] → worklistOf primary fallback = primary) ∧
    (∀ fallback : List FileDiffRec, worklistOf [] fallback = fallback) := by
  have hfrom : ∀ r : ℕ, 1 ≤ r → fromRevOf r = max (r - 1) 1 := by
    intro r hr
    unfold fromRevOf
    rw [if_neg (by omega)]
    omega
  refine ⟨?_, hfrom, ?_, fun fallback => rfl⟩
  · intro fetch e rest
    refine ⟨?_, ?_, ?_, ?_⟩
    · intro hskip
      rw [buildDiffsViaDiff2FromSummary, if_pos hskip]
    · intro hzero
      rw [buildDiffsViaDiff2FromSummary]
      by_cases hskip : e.action = ("add".toList) ∧ e.rev ≤ 1
      · rw [if_pos hskip]
      · rw [if_neg hskip, if_pos hzero]
    · intro hskip hpos hfetch
      rw [buildDiffsViaDiff2FromSummary, if_neg hskip, if_neg (by omega)]
      rw [hfrom e.rev hpos, hfetch]
      rfl
    · intro full hskip hpos hfetch
      rw [buildDiffsViaDiff2FromSummary, if_neg hskip, if_neg (by omega)]
      rw [hfrom e.rev hpos, hfetch]
      rw [diff2Step]
      by_cases hbody : jsTrim (extractUnifiedBodyFromDiff2Output full) ≠ []
      · rw [if_pos hbody, if_pos hbody]
        rfl
      · rw [if_neg hbody, if_neg hbody]
        rfl
  · intro primary fallback hne
    unfold worklistOf
    rw [if_neg (by simpa [List.isEmpty_iff] using hne)]

/-- Witness for C5 at a concrete entry and fetch collaborator. -/
theorem C5_fallback_revision_resolution_witness :
    buildDiffsViaDiff2FromSummary [⟨("//d/a".toList), 3, ("edit".toList)⟩]
        (fun _ _ _ => some ("hdr\n+x".toList)) =
      [⟨("//d/a".toList), ("hdr\n+x".toList)⟩] := by
  have h4 := (C5_fallback_revision_resolution.1 (fun _ _ _ => some ("hdr\n+x".toList))
    ⟨("//d/a".toList), 3, ("edit".toList)⟩ []).2.2.2
  rw [h4 ("hdr\n+x".toList) (by decide) (by decide) rfl]
  decide

/-- Every element of a list is a contiguous segment of its separator join. -/
lemma mem_joinSep (sep : List Char) :
    ∀ (l : List (List Char)) (x : List Char), x ∈ l →
      ∃ u v, joinSep sep l = u ++ x ++ v := by
  intro l
  induction l with
  | nil =>
    intro x hx
    simp at hx
  | cons a t ih =>
    intro x hx
    rcases List.mem_cons.mp hx with heq | hmem
    · subst heq
      cases t with
      | nil => exact ⟨[], [], by simp [joinSep]⟩
      | cons b t' =>
        refine ⟨[], sep ++ joinSep sep (b :: t'), ?_⟩
        show joinSep sep (x :: b :: t') = [] ++ x ++ (sep ++ joinSep sep (b :: t'))
        simp [joinSep]
    · have hne : t ≠ [] := by
        intro hcon
        subst hcon
        simp at hmem
      obtain ⟨u, v, hu⟩ := ih x hmem
      cases t with
      | nil => exact absurd rfl hne
      | cons b t' =>
        refine ⟨a ++ sep ++ u, v, ?_⟩
        show joinSep sep (a :: b :: t') = a ++ sep ++ u ++ x ++ v
        rw [show joinSep sep (a :: b :: t') = a ++ sep ++ joinSep sep (b :: t') from rfl, hu]
        simp [List.append_assoc]

/-- C9 counterexample: with the identity completion collaborator, one result
and changelist id 7, the produced summary content nowhere contains the
claimed header text with an em dash: the code writes a hash-prefixed header
with an ASCII hyphen instead. -/
theorem C9_counterexample :
    containsSeg (("Changelist 7 — Summary".toList))
      (summarizeAcrossFiles (fun p => p) [⟨some ("//a".toList), ("ok".toList)⟩]
        ("7".toList)) = false ∧
    (summarizeAcrossFiles (fun p => p) [⟨some ("//a".toList), ("ok".toList)⟩]
        ("7".toList)).take 26 = ("# Changelist 7 - Summary\n\n".toList) := by
  set_option maxRecDepth 8000 in
  exact ⟨by decide, by decide⟩

/-- C9 (amended): the cross-file summary is produced exactly when a summary
was requested and at least one review result exists; it is one completion call
whose prompt is built from the complete result list (each per-file result with
its file-path header occurs contiguously in the prompt, so the call is ordered
after all per-file results are available), and its output is the completion
result prefixed with the fixed header hash, Changelist, the id and an ASCII
hyphen before Summary. -/
theorem C9_summary_behavior (ai : List Char → List Char) (rs : List ReviewResult)
    (cl : List Char) :
    runSummaryOutput ai false rs cl = none ∧
    runSummaryOutput ai true [] cl = none ∧
    (rs ≠ [] → runSummaryOutput ai true rs cl =
      some (("# Changelist ".toList) ++ cl ++ (" - Summary\n\n".toList) ++
        ai (summarizePrompt rs) ++ ("\n".toList))) ∧
    (∀ r ∈ rs, ∃ u v, summarizePrompt rs =
      u ++ (("File: ".toList) ++ jsShowOpt r.strDepotFile ++ ("\n---\n".toList) ++
        r.strContent ++ ("\n".toList)) ++ v) := by
  refine ⟨rfl, rfl, ?_, ?_⟩
  · intro hne
    unfold runSummaryOutput writeSummaryContent
    rw [if_pos rfl, if_neg (by simpa [List.isEmpty_iff] using hne)]
    rfl
  · intro r hr
    obtain ⟨u, v, hu⟩ := mem_joinSep ("\n\n".toList) (rs.map fun r =>
        ("File: ".toList) ++ jsShowOpt r.strDepotFile ++ ("\n---\n".toList) ++
          r.strContent ++ ("\n".toList)) _ (List.mem_map_of_mem _ hr)
    refine ⟨("Create a concise overall code review summary across files. Identify common issues, cross-file risks, and prioritize follow-ups.\n\n".toList) ++ u, v, ?_⟩
    unfold summarizePrompt
    rw [hu]
    simp [List.append_assoc]

/-- Witness for C9 at a concrete result list and changelist id. -/
theorem C9_summary_behavior_witness :
    runSummaryOutput (fun p => p) true [⟨some ("//a".toList), ("ok".toList)⟩] ("7".toList) =
      some (("# Changelist ".toList) ++ ("7".toList) ++ (" - Summary\n\n".toList) ++
        (fun p => p) (summarizePrompt [⟨some ("//a".toList), ("ok".toList)⟩]) ++
        ("\n".toList)) :=
  (C9_summary_behavior (fun p => p) [⟨some ("//a".toList), ("ok".toList)⟩]
    ("7".toList)).2.2.1 (by decide)

end CodeReview
